import Mathlib

/-!
Verification of the Monte-Carlo testbeam simulator
(testbeam_analysis/tools/simulate_data.py) against its specification.

The numeric code is embedded over the real numbers: floating point
arithmetic is idealised as exact real arithmetic, and math.erf is the
mathematical error function, defined below as an interval integral of
the Gaussian density.  Randomness is made explicit: every place the
source draws from numpy's random stream is modelled by a parameter
(a draw trace, a kept/dropped selection function, a per-record noise
function), so every theorem quantifies over all possible outcomes of
the random stream unless it fixes a concrete one.
-/

noncomputable section

open MeasureTheory intervalIntegral

/-- Boltzmann constant as written in the source (`_calc_sigma_diffusion`). -/
def boltzman_constant : ℝ := 8.6173324e-5

/-- Minimum charge fraction cutoff of `_create_charge_sharing_hits`. -/
def min_fraction : ℝ := 1e-3

/-- The mathematical error function, the idealisation of `math.erf`. -/
def erf (x : ℝ) : ℝ := 2 / Real.sqrt Real.pi * ∫ t in (0:ℝ)..x, Real.exp (-t ^ 2)

/-- `_calc_sigma_diffusion(distance, temperature, bias)`. -/
def calc_sigma_diffusion (distance temperature bias : ℝ) : ℝ :=
  distance * Real.sqrt (2 * temperature / bias * boltzman_constant)

/-- `_bivariante_normal_cdf_limits(a1, a2, b1, b2, mu1, mu2, sigma)`. -/
def bivariante_normal_cdf_limits (a1 a2 b1 b2 mu1 mu2 sigma : ℝ) : ℝ :=
  1 / 4 * (erf ((a2 - mu1) / Real.sqrt (2 * sigma ^ 2)) -
           erf ((a1 - mu1) / Real.sqrt (2 * sigma ^ 2))) *
    (erf ((b2 - mu2) / Real.sqrt (2 * sigma ^ 2)) -
     erf ((b1 - mu2) / Real.sqrt (2 * sigma ^ 2)))

/-- `_calc_charge_fraction(position, position_z, pixel_index_x, pixel_index_y,
pixel_size_x, pixel_size_y, temperature, bias, digitization_sigma_cc)`.
`position` is split into its two components; pixel indices are integers. -/
def calc_charge_fraction (position1 position2 position_z : ℝ)
    (pixel_index_x pixel_index_y : ℤ)
    (pixel_size_x pixel_size_y temperature bias digitization_sigma_cc : ℝ) : ℝ :=
  let sigma := calc_sigma_diffusion position_z temperature bias * digitization_sigma_cc
  if sigma = 0 then 1
  else
    bivariante_normal_cdf_limits
      (pixel_size_x * ((pixel_index_x : ℝ) - 1 / 2))
      (pixel_size_x * ((pixel_index_x : ℝ) + 1 / 2))
      (pixel_size_y * ((pixel_index_y : ℝ) - 1 / 2))
      (pixel_size_y * ((pixel_index_y : ℝ) + 1 / 2))
      position1 position2 sigma

/-- One row loop of `_create_charge_sharing_hits` (either of the two inner
`for actual_row in range(...)` loops; `rows` is the list of `actual_row`
values in iteration order).  State: running `total` fraction and the list of
records written so far (a record is `(column, row, fraction * charge)`; its
position in the list is the write index into the shared output array). -/
def scanRows (frac : ℤ → ℤ → ℝ) (c : ℤ) (charge : ℝ) :
    List ℤ → ℝ → List (ℤ × ℤ × ℝ) → ℝ × List (ℤ × ℤ × ℝ)
  | [], total, acc => (total, acc)
  | r :: rs, total, acc =>
    if frac c r < min_fraction then (total + frac c r, acc)
    else if 1 - min_fraction ≤ total + frac c r then
      (total + frac c r, acc ++ [(c, r, frac c r * charge)])
    else scanRows frac c charge rs (total + frac c r) (acc ++ [(c, r, frac c r * charge)])

/-- One column loop of `_create_charge_sharing_hits` (either of the two outer
`for actual_column in range(...)` loops).  Each accepted column runs the +row
scan then the -row scan; the loop breaks when the accumulated fraction meets
`1 - min_fraction` or the seed-row fraction of the column is below cutoff. -/
def scanCols (frac : ℤ → ℤ → ℝ) (charge : ℝ) (upRows downRows : List ℤ) (seedRow : ℤ) :
    List ℤ → ℝ → List (ℤ × ℤ × ℝ) → ℝ × List (ℤ × ℤ × ℝ)
  | [], total, acc => (total, acc)
  | c :: cs, total, acc =>
    if 1 - min_fraction ≤ total ∨ frac c seedRow < min_fraction then (total, acc)
    else
      scanCols frac charge upRows downRows seedRow cs
        (scanRows frac c charge downRows (scanRows frac c charge upRows total acc).1
          (scanRows frac c charge upRows total acc).2).1
        (scanRows frac c charge downRows (scanRows frac c charge upRows total acc).1
          (scanRows frac c charge upRows total acc).2).2

/-- `_create_charge_sharing_hits`.  Returns the final total fraction and the
list of written records; the records' list positions are the consecutive
write indices, and the per-hit `n_hits` of the source is the list length. -/
def create_charge_sharing_hits (position1 position2 : ℝ) (column row : ℤ) (charge : ℝ)
    (max_column max_row : ℤ)
    (thickness pixel_size_x pixel_size_y temperature bias digitization_sigma_cc : ℝ) :
    ℝ × List (ℤ × ℤ × ℝ) :=
  let position_z := thickness / 2
  let frac : ℤ → ℤ → ℝ := fun c r =>
    calc_charge_fraction position1 position2 position_z (c - column) (r - row)
      pixel_size_x pixel_size_y temperature bias digitization_sigma_cc
  let upRows := (List.range (max_row - row).toNat).map (fun j : ℕ => row + (j : ℤ))
  let downRows := (List.range (row - 1).toNat).map (fun j : ℕ => row - 1 - (j : ℤ))
  let plusCols := (List.range (max_column - column).toNat).map (fun j : ℕ => column + (j : ℤ))
  let minusCols := (List.range (column - 1).toNat).map (fun j : ℕ => column - 1 - (j : ℤ))
  scanCols frac charge upRows downRows row minusCols
    (scanCols frac charge upRows downRows row plusCols 0 []).1
    (scanCols frac charge upRows downRows row plusCols 0 []).2

/-- `_add_charge_sharing_hits`: expands each seed hit `(column, row, charge)`
paired with its in-pixel relative position.  The source preallocates a result
array of `5 * len(hits_digits)` rows and passes `digitization_sigma_cc=1.`;
the concatenated write list and the per-seed-hit counts are returned. -/
def add_charge_sharing_hits (relative_position : List (ℝ × ℝ))
    (hits_digits : List (ℤ × ℤ × ℝ)) (max_column max_row : ℤ)
    (thickness pixel_size_x pixel_size_y temperature bias : ℝ) :
    List (ℤ × ℤ × ℝ) × List ℕ :=
  let results := (relative_position.zip hits_digits).map (fun p =>
    create_charge_sharing_hits p.1.1 p.1.2 p.2.1 p.2.2.1 p.2.2.2 max_column max_row
      thickness pixel_size_x pixel_size_y temperature bias 1)
  ((results.map (fun r => r.2)).flatten, results.map (fun r => r.2.length))

/-- `np.around`: round half to even, as numpy does. -/
def npAround (x : ℝ) : ℤ :=
  if Int.fract x = 1 / 2 then (if Even ⌊x⌋ then ⌊x⌋ else ⌊x⌋ + 1) else round x

/-- Python `int()` applied to a float: truncation toward zero. -/
def intTrunc (x : ℝ) : ℤ := if 0 ≤ x then ⌊x⌋ else -⌊-x⌋

/-- Position-to-pixel discretization of `_digitize_hits`:
subtract the DUT offset, divide by the pitch, then
`np.around(v - 0.5) + 1` (1-based pixel index). -/
def discretize (offset pitch position : ℝ) : ℤ :=
  npAround ((position - offset) / pitch - 1 / 2) + 1

/-- Seed-hit digitization with charge sharing disabled: one record per hit,
column/row from `discretize`, charge from the deposit model (abstracted as a
per-hit function `charges`, the draw from the Landau distribution). -/
def digitize_no_sharing (offset_x offset_y pitch_x pitch_y : ℝ) (charges : ℕ → ℝ) :
    ℕ → List (ℝ × ℝ) → List (ℤ × ℤ × ℝ)
  | _, [] => []
  | k, h :: hs =>
    (discretize offset_x pitch_x h.1, discretize offset_y pitch_y h.2, charges k) ::
      digitize_no_sharing offset_x offset_y pitch_x pitch_y charges (k + 1) hs

/-- Geometric masking step of `_digitize_hits`: keep records with
`0 < column ≤ n_pixel_x` and `0 < row ≤ n_pixel_y`. -/
def maskStep (n_pixel_x n_pixel_y : ℤ) (recs : List (ℤ × ℤ × ℝ)) : List (ℤ × ℤ × ℝ) :=
  recs.filter (fun r => decide (0 < r.1 ∧ r.1 ≤ n_pixel_x ∧ 0 < r.2.1 ∧ r.2.1 ≤ n_pixel_y))

/-- Inefficiency removal, positionally: drop record `k` when `k` is in the
drop set (the first `n_inefficient` entries of the shuffled index list). -/
def ineffGo (dropSet : List ℕ) : ℕ → List (ℤ × ℤ × ℝ) → List (ℤ × ℤ × ℝ)
  | _, [] => []
  | k, r :: rs =>
    if k ∈ dropSet then ineffGo dropSet (k + 1) rs else r :: ineffGo dropSet (k + 1) rs

/-- Inefficiency step of `_digitize_hits`: `shuffled` is the shuffled index
array (a random permutation, kept abstract); the first
`int(count * (1 - efficiency))` of its entries are dropped. -/
def ineffStep (shuffled : List ℕ) (efficiency : ℝ) (recs : List (ℤ × ℤ × ℝ)) :
    List (ℤ × ℤ × ℝ) :=
  ineffGo (shuffled.take (intTrunc ((recs.length : ℝ) * (1 - efficiency))).toNat) 0 recs

/-- Additive-noise step of `_digitize_hits`: adds the k-th noise draw to the
charge of the k-th surviving record, leaving column and row unchanged. -/
def noiseGo (noise : ℕ → ℝ) : ℕ → List (ℤ × ℤ × ℝ) → List (ℤ × ℤ × ℝ)
  | _, [] => []
  | k, r :: rs => (r.1, r.2.1, r.2.2 + noise k) :: noiseGo noise (k + 1) rs

/-- Threshold step of `_digitize_hits`: keep records with charge ≥ threshold. -/
def thresholdStep (threshold : ℝ) (recs : List (ℤ × ℤ × ℝ)) : List (ℤ × ℤ × ℝ) :=
  recs.filter (fun r => decide (threshold ≤ r.2.2))

/-- The per-DUT tail of `_digitize_hits` after the (optional) charge-sharing
expansion: masking, inefficiency, noise, threshold, in source order. -/
def digitizeTail (n_pixel_x n_pixel_y : ℤ) (shuffled : List ℕ) (efficiency : ℝ)
    (noise : ℕ → ℝ) (threshold : ℝ) (recs : List (ℤ × ℤ × ℝ)) : List (ℤ × ℤ × ℝ) :=
  thresholdStep threshold
    (noiseGo noise 0 (ineffStep shuffled efficiency (maskStep n_pixel_x n_pixel_y recs)))

/-- The chunk start offsets of `create_data_and_store`: Python
`range(0, n_events, chunk_size)` (for `chunk_size > 0`), with
`start_event_number = chunk_index * chunk_size`. -/
def chunkStarts (n_events chunk_size : ℕ) : List ℕ :=
  (List.range ((n_events + chunk_size - 1) / chunk_size)).map (fun i => i * chunk_size)

/-- All event numbers simulated by a full run: each chunk calls
`_create_data(start_event_number, n_events=chunk_size)`, which simulates
`chunk_size` events numbered `start_event_number + arange(chunk_size)`. -/
def simulatedEventNumbers (n_events chunk_size : ℕ) : List ℕ :=
  ((chunkStarts n_events chunk_size).map
    (fun s => (List.range chunk_size).map (fun j => s + j))).flatten

/-- Kinds of random draws performed by `_create_data` / `_create_tracks`. -/
inductive Draw
  | tracksPerEvent
  | positionX
  | positionY
  | theta
  | phi
  deriving DecidableEq

/-- The configuration fields of `SimulateData` relevant to run validation. -/
structure SimConfig where
  beam_angle : ℝ
  beam_position : ℝ × ℝ
  beam_position_sigma : ℝ × ℝ
  beam_angle_sigma : ℝ
  dut_thickness : ℝ
  dut_pixel_size : ℝ × ℝ
  dut_n_pixel : ℤ × ℤ

/-- Draw trace of `_create_tracks`: the beam-angle validity check
(`beam_angle / 1000` outside `[0, pi]` raises ValueError) precedes every
position/angle draw; a position or angle draw happens only when its sigma is
nonzero (otherwise `np.repeat` produces a constant, no draw).  The
rejection-retry redraws of out-of-range theta values are not traced; no
theorem here depends on them. -/
def create_tracks_draws (cfg : SimConfig) : Except Unit (List Draw) :=
  if cfg.beam_angle / 1000 > Real.pi ∨ cfg.beam_angle / 1000 < 0 then Except.error ()
  else Except.ok
    ((if cfg.beam_position_sigma.1 ≠ 0 then [Draw.positionX] else []) ++
     (if cfg.beam_position_sigma.2 ≠ 0 then [Draw.positionY] else []) ++
     (if cfg.beam_angle_sigma ≠ 0 then [Draw.theta] else []) ++ [Draw.phi])

/-- Draw trace of `_create_data`: the tracks-per-event normal draw happens
first, then `_create_tracks` runs (which may raise).  The boolean records
whether the run raised ValueError.  No other statement of `_create_data` or
`_digitize_hits` raises, and none inspects thickness, pitch or pixel counts
for validity. -/
def create_data_draws (cfg : SimConfig) : List Draw × Bool :=
  match create_tracks_draws cfg with
  | Except.error _ => ([Draw.tracksPerEvent], true)
  | Except.ok ds => (Draw.tracksPerEvent :: ds, false)

/-- The x-position sampling call of `_create_tracks`: when the configured x
sigma is nonzero, a normal draw with mean `beam_position[0]` and scale
`beam_position_sigma[0]`; otherwise no draw (constant mean). -/
def track_positions_x_call (beam_position beam_position_sigma : ℝ × ℝ) : Option (ℝ × ℝ) :=
  if beam_position_sigma.1 ≠ 0 then some (beam_position.1, beam_position_sigma.1) else none

/-- The y-position sampling call of `_create_tracks`: the guard tests
`beam_position_sigma[1]`, but the scale passed to `np.random.normal` is
`beam_position_sigma[0]`, exactly as in the source (line 295). -/
def track_positions_y_call (beam_position beam_position_sigma : ℝ × ℝ) : Option (ℝ × ℝ) :=
  if beam_position_sigma.2 ≠ 0 then some (beam_position.2, beam_position_sigma.1) else none

/-- Modelled from the spec: diffusion sigma
`drift_distance * sqrt(2 T / bias * k_B)` scaled by the correction factor. -/
def spec_sigma_diffusion (thickness temperature bias digitization_sigma_cc : ℝ) : ℝ :=
  thickness / 2 * Real.sqrt (2 * temperature / bias * boltzman_constant) *
    digitization_sigma_cc

/-- Modelled from the spec, as claim C3 states it: per-axis bin integral
`(1/4) * (erf((upper - mu)/(sqrt 2 * sigma)) - erf((lower - mu)/(sqrt 2 * sigma)))`. -/
def spec_axis_bin_integral (lower upper mu sigma : ℝ) : ℝ :=
  1 / 4 * (erf ((upper - mu) / (Real.sqrt 2 * sigma)) -
           erf ((lower - mu) / (Real.sqrt 2 * sigma)))

/-- Modelled from the spec, claim C3's reading: the 2-D charge fraction as
the product of the two per-axis quarter bin integrals. -/
def spec_charge_fraction_claim (mu1 mu2 : ℝ) (ix iy : ℤ)
    (pitch_x pitch_y thickness temperature bias digitization_sigma_cc : ℝ) : ℝ :=
  spec_axis_bin_integral (pitch_x * ((ix : ℝ) - 1 / 2)) (pitch_x * ((ix : ℝ) + 1 / 2)) mu1
      (spec_sigma_diffusion thickness temperature bias digitization_sigma_cc) *
    spec_axis_bin_integral (pitch_y * ((iy : ℝ) - 1 / 2)) (pitch_y * ((iy : ℝ) + 1 / 2)) mu2
      (spec_sigma_diffusion thickness temperature bias digitization_sigma_cc)

/-- The corrected per-axis bin integral: one half, not one quarter, of the
erf difference (the 1-D Gaussian mass of the bin). -/
def spec_axis_bin_integral_half (lower upper mu sigma : ℝ) : ℝ :=
  1 / 2 * (erf ((upper - mu) / (Real.sqrt 2 * sigma)) -
           erf ((lower - mu) / (Real.sqrt 2 * sigma)))

/-- The corrected 2-D charge fraction: product of the two per-axis half bin
integrals. -/
def spec_charge_fraction_amended (mu1 mu2 : ℝ) (ix iy : ℤ)
    (pitch_x pitch_y thickness temperature bias digitization_sigma_cc : ℝ) : ℝ :=
  spec_axis_bin_integral_half (pitch_x * ((ix : ℝ) - 1 / 2)) (pitch_x * ((ix : ℝ) + 1 / 2)) mu1
      (spec_sigma_diffusion thickness temperature bias digitization_sigma_cc) *
    spec_axis_bin_integral_half (pitch_y * ((iy : ℝ) - 1 / 2)) (pitch_y * ((iy : ℝ) + 1 / 2)) mu2
      (spec_sigma_diffusion thickness temperature bias digitization_sigma_cc)

/-- The charge fraction the engine computes for a hit on a plane:
`_calc_charge_fraction` invoked with `position_z = thickness / 2` as in
`_create_charge_sharing_hits`. -/
def charge_fraction_for_hit (mu1 mu2 : ℝ) (ix iy : ℤ)
    (pitch_x pitch_y thickness temperature bias digitization_sigma_cc : ℝ) : ℝ :=
  calc_charge_fraction mu1 mu2 (thickness / 2) ix iy pitch_x pitch_y temperature bias
    digitization_sigma_cc

/-- Temperature making the diffusion argument `2 * T / bias * k_B` equal 8
at bias 1, so that sigma is `sqrt 8` for drift distance 1 (used to settle
claim C4 on a concrete plane). -/
def c4_temperature : ℝ := 4 / boltzman_constant

/-- Temperature making the diffusion argument equal 4 at bias 1, so that
sigma is 2 for drift distance 1 (used to settle claim C3 concretely). -/
def c3_temperature : ℝ := 2 / boltzman_constant

/-- The per-pixel fraction function of the claim-C4 plane: seed pixel
(1, 1), relative position (0, 0), thickness 2, unit pitch, bias 1,
correction 1, temperature `c4_temperature` (sigma = sqrt 8, so the erf
denominator sqrt(2 sigma^2) is exactly 4). -/
def c4_frac : ℤ → ℤ → ℝ := fun c r =>
  calc_charge_fraction 0 0 (2 / 2) (c - 1) (r - 1) 1 1 c4_temperature 1 1

end

/-! ## Helper lemmas about the digitization tail -/

theorem mem_maskStep {n_pixel_x n_pixel_y : ℤ} {r : ℤ × ℤ × ℝ} {recs : List (ℤ × ℤ × ℝ)}
    (h : r ∈ maskStep n_pixel_x n_pixel_y recs) :
    r ∈ recs ∧ 0 < r.1 ∧ r.1 ≤ n_pixel_x ∧ 0 < r.2.1 ∧ r.2.1 ≤ n_pixel_y := by
  rw [maskStep, List.mem_filter] at h
  exact ⟨h.1, by simpa using h.2⟩

theorem mem_ineffGo {ds : List ℕ} {r : ℤ × ℤ × ℝ} :
    ∀ {k : ℕ} {recs : List (ℤ × ℤ × ℝ)}, r ∈ ineffGo ds k recs → r ∈ recs := by
  intro k recs
  induction recs generalizing k with
  | nil => simp [ineffGo]
  | cons a rs ih =>
    intro h
    rw [ineffGo] at h
    split_ifs at h with hc
    · exact List.mem_cons_of_mem _ (ih h)
    · rcases List.mem_cons.mp h with h1 | h2
      · exact h1 ▸ List.mem_cons_self _ _
      · exact List.mem_cons_of_mem _ (ih h2)

theorem mem_noiseGo {noise : ℕ → ℝ} {r : ℤ × ℤ × ℝ} :
    ∀ {k : ℕ} {recs : List (ℤ × ℤ × ℝ)}, r ∈ noiseGo noise k recs →
      ∃ s ∈ recs, r.1 = s.1 ∧ r.2.1 = s.2.1 := by
  intro k recs
  induction recs generalizing k with
  | nil => simp [noiseGo]
  | cons a rs ih =>
    intro h
    rw [noiseGo] at h
    rcases List.mem_cons.mp h with h1 | h2
    · exact ⟨a, List.mem_cons_self _ _, by rw [h1], by rw [h1]⟩
    · obtain ⟨s, hs, h1, h2⟩ := ih h2
      exact ⟨s, List.mem_cons_of_mem _ hs, h1, h2⟩

theorem mem_thresholdStep {threshold : ℝ} {r : ℤ × ℤ × ℝ} {recs : List (ℤ × ℤ × ℝ)}
    (h : r ∈ thresholdStep threshold recs) : r ∈ recs :=
  (List.mem_filter.mp h).1

/-- C5: every digitized hit record surviving the pipeline tail (mask,
inefficiency, noise, threshold) has a 1-based column within the plane's x
pixel count and a 1-based row within the y pixel count; the steps after the
mask only remove records or alter charge, never column or row. -/
theorem c5_output_in_bounds (n_pixel_x n_pixel_y : ℤ) (shuffled : List ℕ)
    (efficiency : ℝ) (noise : ℕ → ℝ) (threshold : ℝ) (recs : List (ℤ × ℤ × ℝ)) :
    ∀ r ∈ digitizeTail n_pixel_x n_pixel_y shuffled efficiency noise threshold recs,
      1 ≤ r.1 ∧ r.1 ≤ n_pixel_x ∧ 1 ≤ r.2.1 ∧ r.2.1 ≤ n_pixel_y := by
  intro r hr
  rw [digitizeTail] at hr
  obtain ⟨s, hs, he1, he2⟩ := mem_noiseGo (mem_thresholdStep hr)
  rw [ineffStep] at hs
  obtain ⟨-, hb1, hb2, hb3, hb4⟩ := mem_maskStep (mem_ineffGo hs)
  rw [he1, he2]
  omega

/-- Witness for C5 at a concrete plane: the record (2, 3, 10) survives the
tail on a 5x5 plane with full efficiency, zero noise and zero threshold, and
the theorem yields its bounds. -/
theorem c5_output_in_bounds_witness :
    1 ≤ ((2:ℤ), (3:ℤ), (10:ℝ) + 0).1 ∧ ((2:ℤ), (3:ℤ), (10:ℝ) + 0).1 ≤ 5 ∧
      1 ≤ ((2:ℤ), (3:ℤ), (10:ℝ) + 0).2.1 ∧ ((2:ℤ), (3:ℤ), (10:ℝ) + 0).2.1 ≤ 5 :=
  c5_output_in_bounds 5 5 [] 1 (fun _ => 0) 0 [(2, 3, 10)] ((2:ℤ), (3:ℤ), (10:ℝ) + 0)
    (by norm_num [digitizeTail, maskStep, ineffStep, ineffGo, noiseGo, thresholdStep,
      intTrunc])

/-- C6: evaluating the chunk accounting of `create_data_and_store` at
n_events = 250, chunk_size = 100: the loop runs ceil(250/100) = 3 chunks and
each chunk simulates a full 100 events, so 300 events are simulated, not
250 — the total depends on the chunk size. -/
theorem c6_chunk_total_eval :
    (simulatedEventNumbers 250 100).length = 300 ∧
      (simulatedEventNumbers 250 100).length ≠ 250 := by
  have hgen : ∀ n c : ℕ, (simulatedEventNumbers n c).length = (n + c - 1) / c * c := by
    intro n c
    rw [simulatedEventNumbers, List.length_flatten, chunkStarts, List.map_map, List.map_map]
    have hconst : ((List.length ∘ fun s => List.map (fun j => s + j) (List.range c)) ∘
        fun i => i * c) = fun _ => c := by
      funext s
      simp
    rw [hconst, List.map_const', List.sum_replicate, List.length_range, smul_eq_mul]
  have h : (simulatedEventNumbers 250 100).length = 300 := by rw [hgen]
  exact ⟨h, by rw [h]; norm_num⟩

/-- C9: evaluating the track position sampling at
beam_position_sigma = (3, 5): the y draw is issued with scale 3 — the x
sigma — although the configured y sigma is 5. -/
theorem c9_y_sigma_eval :
    track_positions_y_call (0, 0) (3, 5) = some (0, 3) ∧ (3 : ℝ) ≠ 5 := by
  constructor
  · norm_num [track_positions_y_call]
  · norm_num

/-- C7 counterexample: with beam angle 4000 mRad (4 rad, outside [0, pi])
the run does raise the fatal error, but the tracks-per-event normal draw has
already been performed before the rejection, so the draw list before the
error is not empty. -/
theorem c7_counterexample :
    (create_data_draws ⟨4000, (0, 0), (1, 1), 1, 100, (50, 50), (3, 3)⟩).2 = true ∧
      (create_data_draws ⟨4000, (0, 0), (1, 1), 1, 100, (50, 50), (3, 3)⟩).1 ≠ [] := by
  have herr : create_tracks_draws ⟨4000, (0, 0), (1, 1), 1, 100, (50, 50), (3, 3)⟩ =
      Except.error () := by
    rw [create_tracks_draws, if_pos]
    left
    show (4000 : ℝ) / 1000 > Real.pi
    have := Real.pi_lt_d2
    norm_num
    linarith
  rw [create_data_draws, herr]
  simp

/-- C7 (amended): an invalid beam mean angle (outside [0, pi] rad) raises
the fatal ValueError during track creation, after the tracks-per-event draw
but before any position or angle draw; with a valid angle no error is
raised at all - in particular non-positive thickness, pixel pitch or pixel
counts are never rejected. -/
theorem c7_amended (cfg : SimConfig) :
    (cfg.beam_angle / 1000 > Real.pi ∨ cfg.beam_angle / 1000 < 0 →
      create_data_draws cfg = ([Draw.tracksPerEvent], true)) ∧
    (¬(cfg.beam_angle / 1000 > Real.pi ∨ cfg.beam_angle / 1000 < 0) →
      (create_data_draws cfg).2 = false) := by
  constructor
  · intro h
    have herr : create_tracks_draws cfg = Except.error () := by
      rw [create_tracks_draws, if_pos h]
    rw [create_data_draws, herr]
  · intro h
    have hok : create_tracks_draws cfg = Except.ok
        ((if cfg.beam_position_sigma.1 ≠ 0 then [Draw.positionX] else []) ++
         (if cfg.beam_position_sigma.2 ≠ 0 then [Draw.positionY] else []) ++
         (if cfg.beam_angle_sigma ≠ 0 then [Draw.theta] else []) ++ [Draw.phi]) := by
      rw [create_tracks_draws, if_neg h]
    rw [create_data_draws, hok]

/-- Witness for C7 (amended): a 4500 mRad angle is rejected with only the
tracks-per-event draw performed; a configuration with zero thickness, zero
pitch and zero pixel counts (all invalid per the claim) and a valid angle
raises no error. -/
theorem c7_amended_witness :
    create_data_draws ⟨4500, (0, 0), (1, 1), 1, 100, (50, 50), (3, 3)⟩ =
      ([Draw.tracksPerEvent], true) ∧
    (create_data_draws ⟨0, (0, 0), (1, 1), 1, 0, (0, 0), (0, 0)⟩).2 = false := by
  constructor
  · refine (c7_amended _).1 ?_
    left
    show (4500 : ℝ) / 1000 > Real.pi
    have := Real.pi_lt_d2
    norm_num
    linarith
  · refine (c7_amended _).2 ?_
    push_neg
    constructor
    · show (0 : ℝ) / 1000 ≤ Real.pi
      have := Real.pi_pos
      norm_num
      linarith
    · show (0 : ℝ) / 1000 ≥ 0
      norm_num

/-! ## Helper length lemmas for C8 -/

theorem length_ineffGo {ds : List ℕ} :
    ∀ {k : ℕ} {recs : List (ℤ × ℤ × ℝ)}, (ineffGo ds k recs).length ≤ recs.length := by
  intro k recs
  induction recs generalizing k with
  | nil => simp [ineffGo]
  | cons a rs ih =>
    rw [ineffGo]
    split_ifs
    · exact le_trans ih (Nat.le_succ _)
    · simpa using ih

theorem length_noiseGo {noise : ℕ → ℝ} :
    ∀ {k : ℕ} {recs : List (ℤ × ℤ × ℝ)}, (noiseGo noise k recs).length = recs.length := by
  intro k recs
  induction recs generalizing k with
  | nil => simp [noiseGo]
  | cons a rs ih => rw [noiseGo]; simpa using ih

theorem length_digitize_no_sharing (offset_x offset_y pitch_x pitch_y : ℝ)
    (charges : ℕ → ℝ) :
    ∀ (k : ℕ) (hits : List (ℝ × ℝ)),
      (digitize_no_sharing offset_x offset_y pitch_x pitch_y charges k hits).length =
        hits.length := by
  intro k hits
  induction hits generalizing k with
  | nil => simp [digitize_no_sharing]
  | cons a hs ih => rw [digitize_no_sharing]; simpa using ih _

/-- C8 (amended): with charge sharing disabled every input hit produces
exactly one record in the digitized array, and the subsequent pipeline tail
can only remove records, so every input hit maps to at most one record of
the plane's output (exactly one unless removed by masking, inefficiency or
threshold). -/
theorem c8_amended (offset_x offset_y pitch_x pitch_y : ℝ) (charges : ℕ → ℝ)
    (hits : List (ℝ × ℝ)) (n_pixel_x n_pixel_y : ℤ) (shuffled : List ℕ)
    (efficiency : ℝ) (noise : ℕ → ℝ) (threshold : ℝ) :
    (digitize_no_sharing offset_x offset_y pitch_x pitch_y charges 0 hits).length =
        hits.length ∧
      (digitizeTail n_pixel_x n_pixel_y shuffled efficiency noise threshold
          (digitize_no_sharing offset_x offset_y pitch_x pitch_y charges 0 hits)).length ≤
        hits.length := by
  refine ⟨length_digitize_no_sharing _ _ _ _ _ 0 hits, ?_⟩
  calc (digitizeTail n_pixel_x n_pixel_y shuffled efficiency noise threshold
          (digitize_no_sharing offset_x offset_y pitch_x pitch_y charges 0 hits)).length
      ≤ (digitize_no_sharing offset_x offset_y pitch_x pitch_y charges 0 hits).length := by
        rw [digitizeTail]
        refine le_trans (List.length_filter_le _ _) ?_
        rw [length_noiseGo, ineffStep]
        exact le_trans length_ineffGo (List.length_filter_le _ _)
    _ = hits.length := length_digitize_no_sharing _ _ _ _ _ 0 hits

/-- C8 counterexample: a single hit at position (510, 510) on a 3x3-pixel
plane of 50 um pitch (offset 0) discretizes to column = row = 11, is removed
by the mask, and the run's output for that plane is empty — the hit maps to
zero output records, not exactly one. -/
theorem c8_counterexample :
    digitizeTail 3 3 [] 1 (fun _ => 0) 0
        (digitize_no_sharing 0 0 50 50 (fun _ => 0) 0 [(510, 510)]) = [] ∧
      [((510:ℝ), (510:ℝ))].length = 1 := by
  have hfl : (⌊(97 / 10 : ℝ)⌋ : ℤ) = 9 := by
    rw [Int.floor_eq_iff]
    norm_num
  have hnp : npAround (97 / 10 : ℝ) = 10 := by
    rw [npAround, if_neg]
    · rw [round_eq, show (97 / 10 : ℝ) + 1 / 2 = 51 / 5 by norm_num, Int.floor_eq_iff]
      norm_num
    · simp only [Int.fract, hfl]
      norm_num
  have hdis : discretize 0 50 510 = 11 := by
    rw [discretize, show ((510 : ℝ) - 0) / 50 - 1 / 2 = 97 / 10 by norm_num, hnp]
    norm_num
  constructor
  · simp only [digitize_no_sharing, hdis]
    norm_num [digitizeTail, maskStep, ineffStep, ineffGo, noiseGo, thresholdStep, intTrunc]
  · rfl

/-! ## Step lemmas for the cluster-search scan -/

theorem scanRows_cons_low {frac : ℤ → ℤ → ℝ} {c : ℤ} {charge : ℝ} {r : ℤ} {rs : List ℤ}
    {total : ℝ} {acc : List (ℤ × ℤ × ℝ)} (h : frac c r < min_fraction) :
    scanRows frac c charge (r :: rs) total acc = (total + frac c r, acc) := by
  simp only [scanRows]
  rw [if_pos h]

theorem scanRows_cons_stop {frac : ℤ → ℤ → ℝ} {c : ℤ} {charge : ℝ} {r : ℤ} {rs : List ℤ}
    {total : ℝ} {acc : List (ℤ × ℤ × ℝ)} (h1 : ¬frac c r < min_fraction)
    (h2 : 1 - min_fraction ≤ total + frac c r) :
    scanRows frac c charge (r :: rs) total acc =
      (total + frac c r, acc ++ [(c, r, frac c r * charge)]) := by
  simp only [scanRows]
  rw [if_neg h1, if_pos h2]

theorem scanRows_cons_go {frac : ℤ → ℤ → ℝ} {c : ℤ} {charge : ℝ} {r : ℤ} {rs : List ℤ}
    {total : ℝ} {acc : List (ℤ × ℤ × ℝ)} (h1 : ¬frac c r < min_fraction)
    (h2 : ¬1 - min_fraction ≤ total + frac c r) :
    scanRows frac c charge (r :: rs) total acc =
      scanRows frac c charge rs (total + frac c r) (acc ++ [(c, r, frac c r * charge)]) := by
  simp only [scanRows]
  rw [if_neg h1, if_neg h2]

theorem scanCols_cons_break {frac : ℤ → ℤ → ℝ} {charge : ℝ} {up down : List ℤ} {seedRow : ℤ}
    {c : ℤ} {cs : List ℤ} {total : ℝ} {acc : List (ℤ × ℤ × ℝ)}
    (h : 1 - min_fraction ≤ total ∨ frac c seedRow < min_fraction) :
    scanCols frac charge up down seedRow (c :: cs) total acc = (total, acc) := by
  simp only [scanCols]
  rw [if_pos h]

theorem scanCols_cons_go {frac : ℤ → ℤ → ℝ} {charge : ℝ} {up down : List ℤ} {seedRow : ℤ}
    {c : ℤ} {cs : List ℤ} {total : ℝ} {acc : List (ℤ × ℤ × ℝ)}
    (h : ¬(1 - min_fraction ≤ total ∨ frac c seedRow < min_fraction)) :
    scanCols frac charge up down seedRow (c :: cs) total acc =
      scanCols frac charge up down seedRow cs
        (scanRows frac c charge down (scanRows frac c charge up total acc).1
          (scanRows frac c charge up total acc).2).1
        (scanRows frac c charge down (scanRows frac c charge up total acc).1
          (scanRows frac c charge up total acc).2).2 := by
  simp only [scanCols]
  rw [if_neg h]

/-! ## Membership lemmas: every written record's column comes from the column
list of its scan and its row from one of the two row lists -/

theorem scanRows_mem {frac : ℤ → ℤ → ℝ} {c : ℤ} {charge : ℝ} :
    ∀ {rows : List ℤ} {total : ℝ} {acc : List (ℤ × ℤ × ℝ)} {w : ℤ × ℤ × ℝ},
      w ∈ (scanRows frac c charge rows total acc).2 →
        w ∈ acc ∨ (w.1 = c ∧ w.2.1 ∈ rows) := by
  intro rows
  induction rows with
  | nil => intro total acc w h; exact Or.inl h
  | cons r rs ih =>
    intro total acc w h
    simp only [scanRows] at h
    split_ifs at h with h1 h2
    · exact Or.inl h
    · rcases List.mem_append.mp h with ha | hb
      · exact Or.inl ha
      · have hw : w = (c, r, frac c r * charge) := List.mem_singleton.mp hb
        subst hw
        exact Or.inr ⟨rfl, List.mem_cons_self _ _⟩
    · rcases ih h with ha | hb
      · rcases List.mem_append.mp ha with h3 | h4
        · exact Or.inl h3
        · have hw : w = (c, r, frac c r * charge) := List.mem_singleton.mp h4
          subst hw
          exact Or.inr ⟨rfl, List.mem_cons_self _ _⟩
      · exact Or.inr ⟨hb.1, List.mem_cons_of_mem _ hb.2⟩

theorem scanCols_mem {frac : ℤ → ℤ → ℝ} {charge : ℝ} {up down : List ℤ} {seedRow : ℤ} :
    ∀ {cols : List ℤ} {total : ℝ} {acc : List (ℤ × ℤ × ℝ)} {w : ℤ × ℤ × ℝ},
      w ∈ (scanCols frac charge up down seedRow cols total acc).2 →
        w ∈ acc ∨ (w.1 ∈ cols ∧ (w.2.1 ∈ up ∨ w.2.1 ∈ down)) := by
  intro cols
  induction cols with
  | nil => intro total acc w h; exact Or.inl h
  | cons c cs ih =>
    intro total acc w h
    simp only [scanCols] at h
    split_ifs at h with h1
    · exact Or.inl h
    · rcases ih h with ha | hb
      · rcases scanRows_mem ha with ha2 | hb2
        · rcases scanRows_mem ha2 with ha3 | hb3
          · exact Or.inl ha3
          · exact Or.inr ⟨by rw [hb3.1]; exact List.mem_cons_self _ _, Or.inl hb3.2⟩
        · exact Or.inr ⟨by rw [hb2.1]; exact List.mem_cons_self _ _, Or.inr hb2.2⟩
      · exact Or.inr ⟨List.mem_cons_of_mem _ hb.1, hb.2⟩

/-! ## The degenerate sigma = 0 branch -/

theorem sigma_T0 (z bias cc : ℝ) : calc_sigma_diffusion z 0 bias * cc = 0 := by
  rw [calc_sigma_diffusion,
    show 2 * (0 : ℝ) / bias * boltzman_constant = 0 by rw [mul_zero, zero_div, zero_mul],
    Real.sqrt_zero, mul_zero, zero_mul]

theorem calc_charge_fraction_T0 (p1 p2 z : ℝ) (ix iy : ℤ) (px py bias cc : ℝ) :
    calc_charge_fraction p1 p2 z ix iy px py 0 bias cc = 1 := by
  simp only [calc_charge_fraction]
  rw [if_pos (sigma_T0 z bias cc)]

theorem frac_lambda_T0 (p1 p2 z : ℝ) (column row : ℤ) (px py bias cc : ℝ) :
    (fun c r => calc_charge_fraction p1 p2 z (c - column) (r - row) px py 0 bias cc) =
      fun _ _ => (1 : ℝ) := by
  funext c r
  exact calc_charge_fraction_T0 p1 p2 z (c - column) (r - row) px py bias cc

/-- C1: evaluating the engine at a zero-diffusion configuration
(temperature 0, hence sigma = 0) with seed pixel (column, row) = (1, 2) on a
3x3 plane and unit charge: the degenerate branch returns fraction 1 for
every pixel index, so the scan emits the full charge twice — once for the
seed pixel (1, 2) and once for the neighbor (1, 1) — instead of a single
seed record with no neighbors. -/
theorem c1_sigma_zero_eval :
    (create_charge_sharing_hits 0 0 1 2 1 3 3 2 1 1 0 1 1).2 = [(1, 2, 1), (1, 1, 1)] := by
  have hup : scanRows (fun _ _ => (1 : ℝ)) 1 1 [2] 0 [] =
      (0 + 1, [] ++ [(1, 2, 1 * 1)]) :=
    scanRows_cons_stop (by norm_num [min_fraction]) (by norm_num [min_fraction])
  have hdown : scanRows (fun _ _ => (1 : ℝ)) 1 1 [1] (0 + 1) ([] ++ [(1, 2, 1 * 1)]) =
      ((0 + 1) + 1, ([] ++ [(1, 2, 1 * 1)]) ++ [(1, 1, 1 * 1)]) :=
    scanRows_cons_stop (by norm_num [min_fraction]) (by norm_num [min_fraction])
  have hcols : scanCols (fun _ _ => (1 : ℝ)) 1 [2] [1] 2 [1, 2] 0 [] =
      ((0 + 1) + 1, ([] ++ [(1, 2, 1 * 1)]) ++ [(1, 1, 1 * 1)]) := by
    rw [scanCols_cons_go (by norm_num [min_fraction]), hup]
    dsimp only
    rw [hdown]
    dsimp only
    exact scanCols_cons_break (Or.inl (by norm_num [min_fraction]))
  simp only [create_charge_sharing_hits]
  rw [frac_lambda_T0]
  rw [show (List.range ((3 : ℤ) - 2).toNat).map (fun j : ℕ => (2 : ℤ) + (j : ℤ)) = [2] from by
        decide,
      show (List.range ((2 : ℤ) - 1).toNat).map (fun j : ℕ => (2 : ℤ) - 1 - (j : ℤ)) = [1] from by
        decide,
      show (List.range ((3 : ℤ) - 1).toNat).map (fun j : ℕ => (1 : ℤ) + (j : ℤ)) = [1, 2] from by
        decide,
      show (List.range ((1 : ℤ) - 1).toNat).map (fun j : ℕ => (1 : ℤ) - 1 - (j : ℤ)) =
          ([] : List ℤ) from by decide]
  rw [hcols]
  dsimp only
  simp only [scanCols]
  norm_num

/-- C2: evaluating the engine at a zero-diffusion configuration
(temperature 0) with seed pixel (2, 2) on a 3x3 plane and unit charge: two
records are emitted, each carrying the full unit charge, so the sum of the
emitted charge fractions of this single seed hit is 2 > 1. -/
theorem c2_sigma_zero_sum_eval :
    ((create_charge_sharing_hits 0 0 2 2 1 3 3 2 1 1 0 1 1).2.map
        (fun w => w.2.2)).sum = 2 ∧ (1 : ℝ) < 2 := by
  have hup : scanRows (fun _ _ => (1 : ℝ)) 2 1 [2] 0 [] =
      (0 + 1, [] ++ [(2, 2, 1 * 1)]) :=
    scanRows_cons_stop (by norm_num [min_fraction]) (by norm_num [min_fraction])
  have hdown : scanRows (fun _ _ => (1 : ℝ)) 2 1 [1] (0 + 1) ([] ++ [(2, 2, 1 * 1)]) =
      ((0 + 1) + 1, ([] ++ [(2, 2, 1 * 1)]) ++ [(2, 1, 1 * 1)]) :=
    scanRows_cons_stop (by norm_num [min_fraction]) (by norm_num [min_fraction])
  have hcols : scanCols (fun _ _ => (1 : ℝ)) 1 [2] [1] 2 [2] 0 [] =
      ((0 + 1) + 1, ([] ++ [(2, 2, 1 * 1)]) ++ [(2, 1, 1 * 1)]) := by
    rw [scanCols_cons_go (by norm_num [min_fraction]), hup]
    dsimp only
    rw [hdown]
    dsimp only
    simp only [scanCols]
  constructor
  · simp only [create_charge_sharing_hits]
    rw [frac_lambda_T0]
    rw [show (List.range ((3 : ℤ) - 2).toNat).map (fun j : ℕ => (2 : ℤ) + (j : ℤ)) = [2] from by
          decide,
        show (List.range ((2 : ℤ) - 1).toNat).map (fun j : ℕ => (2 : ℤ) - 1 - (j : ℤ)) = [1] from by
          decide]
    rw [hcols]
    dsimp only
    rw [scanCols_cons_break (Or.inl (by norm_num [min_fraction]))]
    norm_num
  · norm_num

/-- C10 counterexample: a seed hit whose seed column (5) lies beyond the
last column of a 3-column plane (possible before masking, which runs only
after cluster expansion) makes the minus-column scan emit a record in
column 4 = max_column + 1, violating the claimed bound
column ≤ max_column - 1 for all emitted records. -/
theorem c10_counterexample :
    (create_charge_sharing_hits 0 0 5 1 1 3 2 2 1 1 0 1 1).2 = [(4, 1, 1)] ∧
      ¬((4 : ℤ) ≤ 3 - 1) := by
  have hup : scanRows (fun _ _ => (1 : ℝ)) 4 1 [1] 0 [] =
      (0 + 1, [] ++ [(4, 1, 1 * 1)]) :=
    scanRows_cons_stop (by norm_num [min_fraction]) (by norm_num [min_fraction])
  constructor
  · simp only [create_charge_sharing_hits]
    rw [frac_lambda_T0]
    rw [show (List.range ((2 : ℤ) - 1).toNat).map (fun j : ℕ => (1 : ℤ) + (j : ℤ)) = [1] from by
          decide,
        show (List.range ((1 : ℤ) - 1).toNat).map (fun j : ℕ => (1 : ℤ) - 1 - (j : ℤ)) =
            ([] : List ℤ) from by decide,
        show (List.range ((3 : ℤ) - 5).toNat).map (fun j : ℕ => (5 : ℤ) + (j : ℤ)) =
            ([] : List ℤ) from by decide,
        show (List.range ((5 : ℤ) - 1).toNat).map (fun j : ℕ => (5 : ℤ) - 1 - (j : ℤ)) =
            [4, 3, 2, 1] from by decide]
    rw [show scanCols (fun _ _ => (1 : ℝ)) 1 [1] [] 1 [] 0 [] = (0, []) from rfl]
    rw [scanCols_cons_go (by norm_num [min_fraction]), hup]
    simp only [scanRows]
    rw [scanCols_cons_break (Or.inl (by norm_num [min_fraction]))]
    norm_num
  · norm_num

/-- C10 (amended): for a seed hit whose seed pixel indices do not exceed
the plane bounds (column ≤ max_column and row ≤ max_row), every emitted
record has column ≤ max_column - 1 and row ≤ max_row - 1, because the
outward scans in the +column and +row directions use exclusive upper
bounds; in particular a seed in the last column never produces a record in
that column. -/
theorem c10_in_range_bounds (position1 position2 : ℝ) (column row : ℤ) (charge : ℝ)
    (max_column max_row : ℤ) (thickness px py temperature bias cc : ℝ)
    (hc : column ≤ max_column) (hr : row ≤ max_row) :
    ∀ w ∈ (create_charge_sharing_hits position1 position2 column row charge max_column
        max_row thickness px py temperature bias cc).2,
      w.1 ≤ max_column - 1 ∧ w.2.1 ≤ max_row - 1 := by
  intro w hw
  simp only [create_charge_sharing_hits] at hw
  have hup : ∀ x ∈ (List.range (max_row - row).toNat).map (fun j : ℕ => row + (j : ℤ)),
      x ≤ max_row - 1 := by
    intro x hx
    rcases List.mem_map.mp hx with ⟨j, hj, rfl⟩
    rw [List.mem_range] at hj
    omega
  have hdown : ∀ x ∈ (List.range (row - 1).toNat).map (fun j : ℕ => row - 1 - (j : ℤ)),
      x ≤ max_row - 1 := by
    intro x hx
    rcases List.mem_map.mp hx with ⟨j, hj, rfl⟩
    rw [List.mem_range] at hj
    omega
  have hplus : ∀ x ∈ (List.range (max_column - column).toNat).map (fun j : ℕ => column + (j : ℤ)),
      x ≤ max_column - 1 := by
    intro x hx
    rcases List.mem_map.mp hx with ⟨j, hj, rfl⟩
    rw [List.mem_range] at hj
    omega
  have hminus : ∀ x ∈ (List.range (column - 1).toNat).map (fun j : ℕ => column - 1 - (j : ℤ)),
      x ≤ max_column - 1 := by
    intro x hx
    rcases List.mem_map.mp hx with ⟨j, hj, rfl⟩
    rw [List.mem_range] at hj
    omega
  rcases scanCols_mem hw with h1 | h2
  · rcases scanCols_mem h1 with h3 | h4
    · exact absurd h3 (List.not_mem_nil w)
    · refine ⟨hplus _ h4.1, ?_⟩
      rcases h4.2 with hu | hd
      · exact hup _ hu
      · exact hdown _ hd
  · refine ⟨hminus _ h2.1, ?_⟩
    rcases h2.2 with hu | hd
    · exact hup _ hu
    · exact hdown _ hd

/-- Witness for C10 (amended) at the concrete in-range seed (1, 2) on a
3x3 plane with sigma = 0. -/
theorem c10_in_range_bounds_witness :
    ((1 : ℤ) ≤ 3 ∧ (2 : ℤ) ≤ 3) ∧
      ∀ w ∈ (create_charge_sharing_hits 0 0 1 2 1 3 3 2 1 1 0 1 1).2,
        w.1 ≤ 3 - 1 ∧ w.2.1 ≤ 3 - 1 :=
  ⟨⟨by norm_num, by norm_num⟩,
    c10_in_range_bounds 0 0 1 2 1 3 3 2 1 1 0 1 1 (by norm_num) (by norm_num)⟩

/-! ## Analytic facts about the error function -/

theorem expsq_continuous : Continuous fun t : ℝ => Real.exp (-t ^ 2) :=
  Real.continuous_exp.comp (continuous_pow 2).neg

theorem expsq_intervalIntegrable (a b : ℝ) :
    IntervalIntegrable (fun t : ℝ => Real.exp (-t ^ 2)) MeasureTheory.volume a b :=
  expsq_continuous.intervalIntegrable a b

theorem erf_sub_erf (a b : ℝ) :
    erf b - erf a = 2 / Real.sqrt Real.pi * ∫ t in a..b, Real.exp (-t ^ 2) := by
  rw [erf, erf, ← mul_sub]
  congr 1
  rw [intervalIntegral.integral_interval_sub_left (expsq_intervalIntegrable 0 b)
    (expsq_intervalIntegrable 0 a)]

theorem erf_diff_lower (a b C : ℝ) (hab : a ≤ b) (hC : ∀ t ∈ Set.Icc a b, t ^ 2 ≤ C) :
    2 / Real.sqrt Real.pi * ((b - a) * Real.exp (-C)) ≤ erf b - erf a := by
  rw [erf_sub_erf]
  apply mul_le_mul_of_nonneg_left _ (by positivity)
  have h1 : ∫ _ in a..b, Real.exp (-C) ≤ ∫ t in a..b, Real.exp (-t ^ 2) := by
    apply intervalIntegral.integral_mono_on hab intervalIntegrable_const
      (expsq_intervalIntegrable a b)
    intro t ht
    exact Real.exp_le_exp.mpr (by have := hC t ht; linarith)
  rw [intervalIntegral.integral_const, smul_eq_mul] at h1
  exact h1

theorem erf_diff_upper (a b : ℝ) (hab : a ≤ b) :
    erf b - erf a ≤ 2 / Real.sqrt Real.pi * (b - a) := by
  rw [erf_sub_erf]
  apply mul_le_mul_of_nonneg_left _ (by positivity)
  have h1 : ∫ t in a..b, Real.exp (-t ^ 2) ≤ ∫ _ in a..b, (1 : ℝ) := by
    apply intervalIntegral.integral_mono_on hab (expsq_intervalIntegrable a b)
      intervalIntegrable_const
    intro t _
    exact Real.exp_le_one_iff.mpr (neg_nonpos.mpr (sq_nonneg t))
  rw [intervalIntegral.integral_const, smul_eq_mul, mul_one] at h1
  exact h1

theorem erf_diff_nonneg (a b : ℝ) (hab : a ≤ b) : 0 ≤ erf b - erf a := by
  rw [erf_sub_erf]
  apply mul_nonneg (by positivity)
  apply intervalIntegral.integral_nonneg hab
  intro t _
  exact (Real.exp_pos _).le

theorem erf_diff_pos (a b : ℝ) (hab : a < b) : 0 < erf b - erf a := by
  have hC : ∀ t ∈ Set.Icc a b, t ^ 2 ≤ max (a ^ 2) (b ^ 2) := by
    intro t ht
    rcases le_or_lt 0 t with h0 | h0
    · exact le_max_of_le_right (by nlinarith [ht.2])
    · exact le_max_of_le_left (by nlinarith [ht.1])
  have hlow := erf_diff_lower a b (max (a ^ 2) (b ^ 2)) hab.le hC
  have hpos : 0 < 2 / Real.sqrt Real.pi *
      ((b - a) * Real.exp (-max (a ^ 2) (b ^ 2))) := by
    have hba : 0 < b - a := by linarith
    positivity
  linarith

/-! ## The engine's fraction in erf form (sigma > 0) -/

theorem calc_charge_fraction_erf_form (mu1 mu2 : ℝ) (ix iy : ℤ)
    (px py thickness temperature bias cc : ℝ)
    (h : 0 < spec_sigma_diffusion thickness temperature bias cc) :
    charge_fraction_for_hit mu1 mu2 ix iy px py thickness temperature bias cc =
      1 / 4 *
        (erf ((px * ((ix : ℝ) + 1 / 2) - mu1) /
            (Real.sqrt 2 * spec_sigma_diffusion thickness temperature bias cc)) -
         erf ((px * ((ix : ℝ) - 1 / 2) - mu1) /
            (Real.sqrt 2 * spec_sigma_diffusion thickness temperature bias cc))) *
        (erf ((py * ((iy : ℝ) + 1 / 2) - mu2) /
            (Real.sqrt 2 * spec_sigma_diffusion thickness temperature bias cc)) -
         erf ((py * ((iy : ℝ) - 1 / 2) - mu2) /
            (Real.sqrt 2 * spec_sigma_diffusion thickness temperature bias cc))) := by
  rw [charge_fraction_for_hit]
  simp only [calc_charge_fraction]
  rw [if_neg (show ¬(calc_sigma_diffusion (thickness / 2) temperature bias * cc = 0) from
    ne_of_gt h)]
  rw [bivariante_normal_cdf_limits]
  have hs : Real.sqrt (2 * (calc_sigma_diffusion (thickness / 2) temperature bias * cc) ^ 2) =
      Real.sqrt 2 * spec_sigma_diffusion thickness temperature bias cc := by
    rw [Real.sqrt_mul (by norm_num : (0 : ℝ) ≤ 2)]
    congr 1
    exact Real.sqrt_sq h.le
  rw [hs]

/-- C3 (amended): for sigma > 0 the charge fraction computed by the engine
for a pixel equals the product of per-axis bin integrals of the 2-D
Gaussian, where each axis bin integral is ONE HALF (not one quarter) of
[erf((upper-mu)/(sqrt2*sigma)) - erf((lower-mu)/(sqrt2*sigma))] over the
pixel's extent, with sigma = (thickness/2)*sqrt(2*T/bias*k_B) times the
correction factor. -/
theorem c3_half_axis_product (mu1 mu2 : ℝ) (ix iy : ℤ)
    (px py thickness temperature bias cc : ℝ)
    (h : 0 < spec_sigma_diffusion thickness temperature bias cc) :
    charge_fraction_for_hit mu1 mu2 ix iy px py thickness temperature bias cc =
      spec_charge_fraction_amended mu1 mu2 ix iy px py thickness temperature bias cc := by
  rw [calc_charge_fraction_erf_form mu1 mu2 ix iy px py thickness temperature bias cc h,
    spec_charge_fraction_amended, spec_axis_bin_integral_half, spec_axis_bin_integral_half]
  ring

theorem c3_sigma_concrete : spec_sigma_diffusion 2 c3_temperature 1 1 = 2 := by
  rw [spec_sigma_diffusion,
    show 2 * c3_temperature / 1 * boltzman_constant = 4 by
      rw [c3_temperature, boltzman_constant]; norm_num,
    show Real.sqrt 4 = 2 by
      rw [show (4 : ℝ) = 2 ^ 2 by norm_num, Real.sqrt_sq (by norm_num : (0 : ℝ) ≤ 2)]]
  norm_num

/-- C3 counterexample: at seed-centered offset 0, pixel index (0, 0), pitch
8, thickness 2, bias 1, correction 1 and a temperature making sigma = 2,
the engine's fraction is (1/4)*D*D while the claim's product of per-axis
QUARTER integrals is (1/4*D)*(1/4*D); they differ because D (the erf
difference across the seed pixel) is strictly positive. -/
theorem c3_quarter_counterexample :
    charge_fraction_for_hit 0 0 0 0 8 8 2 c3_temperature 1 1 ≠
      spec_charge_fraction_claim 0 0 0 0 8 8 2 c3_temperature 1 1 := by
  have hpos : 0 < spec_sigma_diffusion 2 c3_temperature 1 1 := by
    rw [c3_sigma_concrete]; norm_num
  rw [calc_charge_fraction_erf_form 0 0 0 0 8 8 2 c3_temperature 1 1 hpos,
    spec_charge_fraction_claim, spec_axis_bin_integral]
  have hD : 0 < erf ((8 * (((0 : ℤ) : ℝ) + 1 / 2) - 0) /
        (Real.sqrt 2 * spec_sigma_diffusion 2 c3_temperature 1 1)) -
      erf ((8 * (((0 : ℤ) : ℝ) - 1 / 2) - 0) /
        (Real.sqrt 2 * spec_sigma_diffusion 2 c3_temperature 1 1)) := by
    apply erf_diff_pos
    have hden : 0 < Real.sqrt 2 * spec_sigma_diffusion 2 c3_temperature 1 1 := by
      have h2 : 0 < Real.sqrt 2 := Real.sqrt_pos.mpr (by norm_num)
      positivity
    apply div_lt_div_of_pos_right _ hden
    push_cast
    norm_num
  intro heq
  nlinarith [hD, heq]

/-! ## Numeric bounds for the claim-C4 configuration -/

theorem c4_frac_eval (dx dy : ℤ) :
    calc_charge_fraction 0 0 ((2 : ℝ) / 2) dx dy 1 1 c4_temperature 1 1 =
      1 / 4 *
        (erf ((1 * ((dx : ℝ) + 1 / 2) - 0) / 4) - erf ((1 * ((dx : ℝ) - 1 / 2) - 0) / 4)) *
        (erf ((1 * ((dy : ℝ) + 1 / 2) - 0) / 4) - erf ((1 * ((dy : ℝ) - 1 / 2) - 0) / 4)) := by
  have h8 : 2 * c4_temperature / 1 * boltzman_constant = 8 := by
    rw [c4_temperature, boltzman_constant]; norm_num
  have hsig : calc_sigma_diffusion ((2 : ℝ) / 2) c4_temperature 1 * 1 = Real.sqrt 8 := by
    rw [calc_sigma_diffusion, h8]; norm_num
  have hne : ¬(calc_sigma_diffusion ((2 : ℝ) / 2) c4_temperature 1 * 1 = 0) := by
    rw [hsig]
    exact ne_of_gt (Real.sqrt_pos.mpr (by norm_num))
  have hsq : Real.sqrt (2 * (calc_sigma_diffusion ((2 : ℝ) / 2) c4_temperature 1 * 1) ^ 2) =
      4 := by
    rw [hsig, Real.sq_sqrt (by norm_num : (0 : ℝ) ≤ 8),
      show (2 : ℝ) * 8 = 16 by norm_num,
      show (16 : ℝ) = 4 ^ 2 by norm_num, Real.sqrt_sq (by norm_num : (0 : ℝ) ≤ 4)]
  simp only [calc_charge_fraction]
  rw [if_neg hne, bivariante_normal_cdf_limits, hsq]

theorem c4_lower_core : (1 : ℝ) / 1000 ≤ 1 / (16 * Real.pi) * Real.exp (-(122 / 64)) := by
  have hexp : Real.exp (122 / 64 : ℝ) ≤ 7.39 := by
    have hap : Real.exp (122 / 64 : ℝ) ≤ Real.exp 2 := Real.exp_le_exp.mpr (by norm_num)
    have h3 : Real.exp (2 : ℝ) = Real.exp 1 * Real.exp 1 := by
      rw [← Real.exp_add]; norm_num
    nlinarith [Real.exp_one_lt_d9, Real.exp_pos 1]
  have hpi : Real.pi < 3.15 := Real.pi_lt_d2
  have hpipos := Real.pi_pos
  have hexppos := Real.exp_pos (122 / 64 : ℝ)
  have hkey : 16 * Real.pi * Real.exp (122 / 64) ≤ 1000 := by nlinarith
  calc (1 : ℝ) / 1000 ≤ 1 / (16 * Real.pi * Real.exp (122 / 64)) :=
        one_div_le_one_div_of_le (by positivity) hkey
  _ = 1 / (16 * Real.pi) * Real.exp (-(122 / 64)) := by
      rw [Real.exp_neg, one_div, one_div, mul_inv]

theorem c4_pair_lower (a0 b0 a b : ℝ) (hab0 : a0 ≤ b0) (hw0 : b0 - a0 = 1 / 4)
    (hlo0 : -(1 / 8) ≤ a0) (hhi0 : b0 ≤ 1 / 8)
    (hab : a ≤ b) (hw : b - a = 1 / 4) (hlo : -(11 / 8) ≤ a) (hhi : b ≤ 11 / 8) :
    1 / 1000 ≤ 1 / 4 * (erf b0 - erf a0) * (erf b - erf a) := by
  have hX := erf_diff_lower a0 b0 (1 / 64) hab0 (by
    intro t ht
    have h1 := ht.1
    have h2 := ht.2
    nlinarith)
  have hY := erf_diff_lower a b (121 / 64) hab (by
    intro t ht
    have h1 := ht.1
    have h2 := ht.2
    nlinarith)
  rw [hw0] at hX
  rw [hw] at hY
  have hspos : 0 < Real.sqrt Real.pi := Real.sqrt_pos.mpr Real.pi_pos
  have hss : Real.sqrt Real.pi * Real.sqrt Real.pi = Real.pi := by
    nlinarith [Real.sq_sqrt Real.pi_pos.le]
  have hA : 0 < 2 / Real.sqrt Real.pi * (1 / 4 * Real.exp (-(1 / 64))) := by positivity
  have hB : 0 < 2 / Real.sqrt Real.pi * (1 / 4 * Real.exp (-(121 / 64))) := by positivity
  have hprod : 2 / Real.sqrt Real.pi * (1 / 4 * Real.exp (-(1 / 64))) *
      (2 / Real.sqrt Real.pi * (1 / 4 * Real.exp (-(121 / 64)))) ≤
      (erf b0 - erf a0) * (erf b - erf a) :=
    mul_le_mul hX hY hB.le (le_trans hA.le hX)
  have hee : Real.exp (-(1 / 64)) * Real.exp (-(121 / 64)) = Real.exp (-(122 / 64)) := by
    rw [← Real.exp_add]; norm_num
  have hval : 1 / 4 * (2 / Real.sqrt Real.pi * (1 / 4 * Real.exp (-(1 / 64))) *
      (2 / Real.sqrt Real.pi * (1 / 4 * Real.exp (-(121 / 64))))) =
      1 / (16 * Real.pi) * Real.exp (-(122 / 64)) := by
    calc 1 / 4 * (2 / Real.sqrt Real.pi * (1 / 4 * Real.exp (-(1 / 64))) *
        (2 / Real.sqrt Real.pi * (1 / 4 * Real.exp (-(121 / 64))))) =
        Real.exp (-(1 / 64)) * Real.exp (-(121 / 64)) /
          (16 * (Real.sqrt Real.pi * Real.sqrt Real.pi)) := by
          rw [eq_div_iff (by positivity)]
          field_simp
          ring_nf
          rw [Real.sq_sqrt Real.pi_pos.le]
    _ = 1 / (16 * Real.pi) * Real.exp (-(122 / 64)) := by
          rw [hee, hss]
          ring
  calc (1 : ℝ) / 1000 ≤ 1 / (16 * Real.pi) * Real.exp (-(122 / 64)) := c4_lower_core
  _ = 1 / 4 * (2 / Real.sqrt Real.pi * (1 / 4 * Real.exp (-(1 / 64))) *
      (2 / Real.sqrt Real.pi * (1 / 4 * Real.exp (-(121 / 64))))) := hval.symm
  _ ≤ 1 / 4 * ((erf b0 - erf a0) * (erf b - erf a)) := by linarith [hprod]
  _ = 1 / 4 * (erf b0 - erf a0) * (erf b - erf a) := by ring

theorem c4_pair_upper (a0 b0 a b : ℝ) (hab0 : a0 ≤ b0) (hw0 : b0 - a0 = 1 / 4)
    (hab : a ≤ b) (hw : b - a = 1 / 4) :
    1 / 4 * (erf b0 - erf a0) * (erf b - erf a) ≤ 1 / 50 := by
  have hX := erf_diff_upper a0 b0 hab0
  have hY := erf_diff_upper a b hab
  rw [hw0] at hX
  rw [hw] at hY
  have hXnn := erf_diff_nonneg a0 b0 hab0
  have hYnn := erf_diff_nonneg a b hab
  have hspos : 0 < Real.sqrt Real.pi := Real.sqrt_pos.mpr Real.pi_pos
  have hss : Real.sqrt Real.pi * Real.sqrt Real.pi = Real.pi := by
    nlinarith [Real.sq_sqrt Real.pi_pos.le]
  have hprod : (erf b0 - erf a0) * (erf b - erf a) ≤
      2 / Real.sqrt Real.pi * (1 / 4) * (2 / Real.sqrt Real.pi * (1 / 4)) :=
    mul_le_mul hX hY hYnn (by positivity)
  have hval : 1 / 4 * (2 / Real.sqrt Real.pi * (1 / 4) * (2 / Real.sqrt Real.pi * (1 / 4))) =
      1 / (16 * Real.pi) := by
    rw [eq_div_iff (by positivity)]
    field_simp
    ring_nf
    rw [Real.sq_sqrt Real.pi_pos.le]
  have hfin : 1 / (16 * Real.pi) ≤ (1 : ℝ) / 50 := by
    have := Real.pi_gt_d2
    rw [div_le_div_iff₀ (by positivity) (by norm_num)]
    nlinarith
  calc 1 / 4 * (erf b0 - erf a0) * (erf b - erf a)
      = 1 / 4 * ((erf b0 - erf a0) * (erf b - erf a)) := by ring
  _ ≤ 1 / 4 * (2 / Real.sqrt Real.pi * (1 / 4) * (2 / Real.sqrt Real.pi * (1 / 4))) := by
      linarith [hprod]
  _ = 1 / (16 * Real.pi) := hval
  _ ≤ 1 / 50 := hfin

theorem c4_frac_bounds (r : ℤ) (h1 : 1 ≤ r) (h6 : r ≤ 6) :
    min_fraction ≤ c4_frac 1 r ∧ c4_frac 1 r ≤ 1 / 50 := by
  have hmf : min_fraction = 1 / 1000 := by norm_num [min_fraction]
  have hr1 : (1 : ℝ) ≤ (r : ℝ) := by exact_mod_cast h1
  have hr6 : (r : ℝ) ≤ 6 := by exact_mod_cast h6
  simp only [c4_frac]
  rw [c4_frac_eval, hmf]
  push_cast
  constructor
  · exact c4_pair_lower _ _ _ _ (by norm_num) (by norm_num) (by norm_num) (by norm_num)
      (by linarith) (by ring) (by linarith) (by linarith)
  · exact c4_pair_upper _ _ _ _ (by norm_num) (by norm_num) (by linarith) (by ring)

/-- C4: evaluating the cluster expansion of a single seed hit at
(column, row) = (1, 1) with unit charge on a plane with max_column = 2,
max_row = 7, thickness 2, unit pitch, bias 1 and temperature
`c4_temperature` (diffusion sigma = sqrt 8, about 2.8 pitches): all six
scanned row pixels have fraction in [1/1000, 1/50], so six records are
written while the accumulated fraction stays below 1 - 1e-3 — the buffer
preallocated at 5 records per seed hit receives 6 consecutive writes, and
the source performs the out-of-capacity write unconditionally, with no
reallocation or truncation. -/
theorem c4_buffer_overflow_eval :
    (add_charge_sharing_hits [(0, 0)] [(1, 1, 1)] 2 7 2 1 1 c4_temperature 1).1.length = 6 ∧
      5 * 1 < 6 := by
  refine ⟨?_, by norm_num⟩
  have hmf : min_fraction = 1 / 1000 := by norm_num [min_fraction]
  have hb1 := c4_frac_bounds 1 (by norm_num) (by norm_num)
  have hb2 := c4_frac_bounds 2 (by norm_num) (by norm_num)
  have hb3 := c4_frac_bounds 3 (by norm_num) (by norm_num)
  have hb4 := c4_frac_bounds 4 (by norm_num) (by norm_num)
  have hb5 := c4_frac_bounds 5 (by norm_num) (by norm_num)
  have hb6 := c4_frac_bounds 6 (by norm_num) (by norm_num)
  have hrows : scanRows c4_frac 1 1 [1, 2, 3, 4, 5, 6] 0 [] =
      (0 + c4_frac 1 1 + c4_frac 1 2 + c4_frac 1 3 + c4_frac 1 4 + c4_frac 1 5 + c4_frac 1 6,
        [] ++ [(1, 1, c4_frac 1 1 * 1)] ++ [(1, 2, c4_frac 1 2 * 1)] ++
          [(1, 3, c4_frac 1 3 * 1)] ++ [(1, 4, c4_frac 1 4 * 1)] ++
          [(1, 5, c4_frac 1 5 * 1)] ++ [(1, 6, c4_frac 1 6 * 1)]) := by
    rw [scanRows_cons_go (not_lt.mpr hb1.1)
        (not_le.mpr (by linarith [hb1.2, hmf]))]
    rw [scanRows_cons_go (not_lt.mpr hb2.1)
        (not_le.mpr (by linarith [hb1.2, hb2.2, hmf]))]
    rw [scanRows_cons_go (not_lt.mpr hb3.1)
        (not_le.mpr (by linarith [hb1.2, hb2.2, hb3.2, hmf]))]
    rw [scanRows_cons_go (not_lt.mpr hb4.1)
        (not_le.mpr (by linarith [hb1.2, hb2.2, hb3.2, hb4.2, hmf]))]
    rw [scanRows_cons_go (not_lt.mpr hb5.1)
        (not_le.mpr (by linarith [hb1.2, hb2.2, hb3.2, hb4.2, hb5.2, hmf]))]
    rw [scanRows_cons_go (not_lt.mpr hb6.1)
        (not_le.mpr (by linarith [hb1.2, hb2.2, hb3.2, hb4.2, hb5.2, hb6.2, hmf]))]
    simp only [scanRows]
  have hcheck : ¬(1 - min_fraction ≤ (0 : ℝ) ∨ c4_frac 1 1 < min_fraction) := by
    rw [not_or]
    exact ⟨not_le.mpr (by linarith [hmf]), not_lt.mpr hb1.1⟩
  have hcols : scanCols c4_frac 1 [1, 2, 3, 4, 5, 6] [] 1 [1] 0 [] =
      (0 + c4_frac 1 1 + c4_frac 1 2 + c4_frac 1 3 + c4_frac 1 4 + c4_frac 1 5 + c4_frac 1 6,
        [] ++ [(1, 1, c4_frac 1 1 * 1)] ++ [(1, 2, c4_frac 1 2 * 1)] ++
          [(1, 3, c4_frac 1 3 * 1)] ++ [(1, 4, c4_frac 1 4 * 1)] ++
          [(1, 5, c4_frac 1 5 * 1)] ++ [(1, 6, c4_frac 1 6 * 1)]) := by
    rw [scanCols_cons_go hcheck, hrows]
    simp only [scanRows, scanCols]
  have hadd : (add_charge_sharing_hits [(0, 0)] [(1, 1, 1)] 2 7 2 1 1 c4_temperature 1).1 =
      (create_charge_sharing_hits 0 0 1 1 1 2 7 2 1 1 c4_temperature 1 1).2 := by
    simp [add_charge_sharing_hits]
  rw [hadd]
  simp only [create_charge_sharing_hits]
  rw [show (fun c r => calc_charge_fraction 0 0 ((2 : ℝ) / 2) (c - 1) (r - 1) 1 1
      c4_temperature 1 1) = c4_frac from rfl]
  rw [show (List.range ((7 : ℤ) - 1).toNat).map (fun j : ℕ => (1 : ℤ) + (j : ℤ)) =
        [1, 2, 3, 4, 5, 6] from by decide,
      show (List.range ((1 : ℤ) - 1).toNat).map (fun j : ℕ => (1 : ℤ) - 1 - (j : ℤ)) =
        ([] : List ℤ) from by decide,
      show (List.range ((2 : ℤ) - 1).toNat).map (fun j : ℕ => (1 : ℤ) + (j : ℤ)) =
        [1] from by decide]
  rw [hcols]
  simp only [scanCols]
  simp [List.length_append]

/-- Witness for C3 (amended) at pixel index (1, 1), pitch 8, thickness 2,
bias 1, correction 1 and a temperature making sigma = 2 > 0. -/
theorem c3_half_axis_product_witness :
    0 < spec_sigma_diffusion 2 c3_temperature 1 1 ∧
      charge_fraction_for_hit 0 0 1 1 8 8 2 c3_temperature 1 1 =
        spec_charge_fraction_amended 0 0 1 1 8 8 2 c3_temperature 1 1 :=
  ⟨by rw [c3_sigma_concrete]; norm_num,
    c3_half_axis_product 0 0 1 1 8 8 2 c3_temperature 1 1
      (by rw [c3_sigma_concrete]; norm_num)⟩
